import Mathlib

set_option maxHeartbeats 1000000

/-!
Verification of the DXF geometric reconstruction pipeline
(src/CAD-parser/dxf_app.py : process_dxf and
 src/ocr-service/modules/dxf_utils.py : process_dxf_geometry).

The pipeline is embedded shallowly over exact rational arithmetic.
Because kernel computation on Mathlib rationals is blocked by the
well-founded gcd in normalisation, we use an unnormalised executable
rational type Rq (integer numerator, positive integer denominator) with
value-level comparison by cross multiplication, together with a
homomorphism toRat into the mathematical rationals used to state
specification-level facts.
-/

/-- Executable unnormalised rational number: numerator, positive
denominator.  Two values may represent the same rational; value
equality is the Bool test beq below, exactly like float equality in
the Python source. -/
structure Rq where
  num : Int
  den : Int
  pos : 0 < den

namespace Rq

def ofInt (n : Int) : Rq := ⟨n, 1, Int.one_pos⟩

def zero : Rq := ofInt 0

def one : Rq := ofInt 1

def mk2 (n d : Int) (h : 0 < d) : Rq := ⟨n, d, h⟩

def add (a b : Rq) : Rq :=
  ⟨a.num * b.den + b.num * a.den, a.den * b.den, mul_pos a.pos b.pos⟩

def sub (a b : Rq) : Rq :=
  ⟨a.num * b.den - b.num * a.den, a.den * b.den, mul_pos a.pos b.pos⟩

def mul (a b : Rq) : Rq :=
  ⟨a.num * b.num, a.den * b.den, mul_pos a.pos b.pos⟩

def inv (a : Rq) : Rq :=
  if h : 0 < a.num then ⟨a.den, a.num, h⟩
  else if h2 : a.num < 0 then ⟨-a.den, -a.num, by omega⟩
  else ⟨0, 1, Int.one_pos⟩

def div (a b : Rq) : Rq := mul a (inv b)

/-- Value equality (the embedding of float equality in the source). -/
def beq (a b : Rq) : Bool := a.num * b.den == b.num * a.den

/-- Value less-or-equal. -/
def ble (a b : Rq) : Bool := decide (a.num * b.den ≤ b.num * a.den)

/-- Value strict less-than. -/
def blt (a b : Rq) : Bool := decide (a.num * b.den < b.num * a.den)

/-- Interpretation into the mathematical rationals. -/
def toRat (a : Rq) : ℚ := (a.num : ℚ) / (a.den : ℚ)

instance instDecEqRq : DecidableEq Rq := fun a b =>
  decidable_of_iff (a.num = b.num ∧ a.den = b.den) (by
    cases a; cases b
    simp)

end Rq

/-! ## Points, segments and vector primitives -/

/-- A point: pair of coordinates (Python tuple of floats, here exact). -/
abbrev Pt := Rq × Rq

/-- Value equality of points (float tuple equality in the source). -/
def pBeq (p q : Pt) : Bool := Rq.beq p.1 q.1 && Rq.beq p.2 q.2

def vsub (p q : Pt) : Pt := (Rq.sub p.1 q.1, Rq.sub p.2 q.2)

def vadd (p v : Pt) : Pt := (Rq.add p.1 v.1, Rq.add p.2 v.2)

def smul (t : Rq) (v : Pt) : Pt := (Rq.mul t v.1, Rq.mul t v.2)

def dotP (v w : Pt) : Rq := Rq.add (Rq.mul v.1 w.1) (Rq.mul v.2 w.2)

def crossP (v w : Pt) : Rq := Rq.sub (Rq.mul v.1 w.2) (Rq.mul v.2 w.1)

/-- Squared euclidean distance (distances are compared squared; both
sides of every comparison in the source are nonnegative, so this is
equivalent to comparing true distances). -/
def sqDist (p q : Pt) : Rq := dotP (vsub p q) (vsub p q)

/-- A segment: ordered pair of endpoints, undirected for connectivity. -/
abbrev Seg := Pt × Pt

/-! ## Rounding to 3 decimals (round half to even, as Python round) -/

/-- Nearest integer to n / d (d positive), ties to even. -/
def roundHalfEven (n d : Int) : Int :=
  let fl := Int.fdiv n d
  let r := n - fl * d
  if 2 * r < d then fl
  else if d < 2 * r then fl + 1
  else if fl % 2 == 0 then fl else fl + 1

/-- round(x, 3) from the source: round x * 1000 to an integer, keep
denominator 1000.  Every rounded coordinate therefore has the canonical
representation k / 1000, so structural equality of rounded points
coincides with value equality. -/
def round3 (a : Rq) : Rq := ⟨roundHalfEven (a.num * 1000) a.den, 1000, by decide⟩

def roundPt (p : Pt) : Pt := (round3 p.1, round3 p.2)

/-! ## Input records (the external-interface contract of the spec) -/

/-- A line or polyline record as produced by the CAD container parser. -/
inductive Entity where
  | line (layer : String) (s e : Pt)
  | lwpolyline (layer : String) (points : List Pt) (closed : Bool)

def Entity.layer : Entity → String
  | .line l _ _ => l
  | .lwpolyline l _ _ => l

/-- Layer filter of process_dxf: skip iff a selection is given and the
layer is not in it. -/
def keptApp (activeLayers : Option (List String)) (l : String) : Bool :=
  match activeLayers with
  | none => true
  | some sel => decide (l ∈ sel)

/-- Layer filter of process_dxf_geometry: an empty selection list
disables filtering. -/
def keptUtils (activeLayers : Option (List String)) (l : String) : Bool :=
  match activeLayers with
  | none => true
  | some sel => if sel.isEmpty then true else decide (l ∈ sel)

/-- Unroll a vertex list into consecutive pairs. -/
def polyPairs : List Pt → List Seg
  | [] => []
  | [_] => []
  | p :: q :: rest => (p, q) :: polyPairs (q :: rest)

/-- Segments contributed by one entity in process_dxf.  A closed
polyline accesses points[-1]; on an empty vertex list this raises
IndexError, modelled as none. -/
def entitySegsApp : Entity → Option (List Seg)
  | .line _ s e => some [(s, e)]
  | .lwpolyline _ pts closed =>
      if closed then
        match pts with
        | [] => none
        | p :: rest =>
            some (polyPairs (p :: rest) ++ [((p :: rest).getLast (by simp), p)])
      else some (polyPairs pts)

/-- The lines list built by process_dxf (dxf_app.py, lines 36-48). -/
def extractApp (al : Option (List String)) : List Entity → Option (List Seg)
  | [] => some []
  | e :: rest =>
      if keptApp al e.layer then
        match entitySegsApp e with
        | none => none
        | some ss => (extractApp al rest).map (fun more => ss ++ more)
      else extractApp al rest

/-- Segments contributed by one entity in process_dxf_geometry, which
guards polylines with len(points) > 1. -/
def entitySegsUtils : Entity → List Seg
  | .line _ s e => [(s, e)]
  | .lwpolyline _ pts closed =>
      match pts with
      | p :: q :: rest =>
          polyPairs (p :: q :: rest) ++
            (if closed then [((p :: q :: rest).getLast (by simp), p)] else [])
      | _ => []

/-- The lines list built by process_dxf_geometry (dxf_utils.py, lines 31-45). -/
def extractUtils (al : Option (List String)) : List Entity → List Seg
  | [] => []
  | e :: rest =>
      (if keptUtils al e.layer then entitySegsUtils e else []) ++ extractUtils al rest

/-! ## Segment canonicalisation: rounding filter -/

/-- The rounded list of both sources: round each endpoint to 3
decimals, drop the segment when the rounded endpoints coincide. -/
def roundedOf : List Seg → List Seg
  | [] => []
  | (a, b) :: rest =>
      let p1 := roundPt a
      let p2 := roundPt b
      if pBeq p1 p2 then roundedOf rest else (p1, p2) :: roundedOf rest

/-! ## Connectivity graph (networkx nx.Graph) -/

/-- Order on points used only to normalise an undirected edge. -/
def pLe (p q : Pt) : Bool := Rq.blt p.1 q.1 || (Rq.beq p.1 q.1 && Rq.ble p.2 q.2)

def normPair (s : Seg) : Seg := if pLe s.1 s.2 then s else (s.2, s.1)

/-- nx.Graph.add_edge: a simple graph, re-adding an existing
undirected edge changes nothing.  Node identity is float equality; all
graph points are round3 outputs, whose representation is canonical. -/
def addEdgeG (es : List Seg) (e : Seg) : List Seg :=
  if normPair e ∈ es then es else es ++ [normPair e]

def graphEdges (segs : List Seg) : List Seg := segs.foldl addEdgeG []

def addNodeG (ns : List Pt) (p : Pt) : List Pt := if p ∈ ns then ns else ns ++ [p]

def graphNodes (segs : List Seg) : List Pt :=
  segs.foldl (fun ns s => addNodeG (addNodeG ns s.1) s.2) []

def degreeG (es : List Seg) (n : Pt) : Nat :=
  es.countP (fun e => decide (e.1 = n) || decide (e.2 = n))

/-- Degree-1 nodes of the graph, in node insertion order. -/
def dead_ends (rounded : List Seg) : List Pt :=
  (graphNodes rounded).filter (fun n => degreeG (graphEdges rounded) n == 1)

/-! ## Gap closing: nearest point on the union of the rounded segments -/

/-- Nearest point of a segment to p: clamped orthogonal projection. -/
def closestPointOnSeg (p : Pt) (s : Seg) : Pt :=
  let d := vsub s.2 s.1
  let dd := dotP d d
  if Rq.beq dd Rq.zero then s.1
  else
    let t := Rq.div (dotP (vsub p s.1) d) dd
    let tc := if Rq.blt t Rq.zero then Rq.zero
              else if Rq.blt Rq.one t then Rq.one else t
    vadd s.1 (smul tc d)

def nearAux (p : Pt) (best : Pt) : List Seg → Pt
  | [] => best
  | s :: rest =>
      let c := closestPointOnSeg p s
      if Rq.blt (sqDist p c) (sqDist p best) then nearAux p c rest
      else nearAux p best rest

/-- nearest_points(p, MultiLineString(rounded))[1]: a point of the
union of all rounded segments at minimal distance from p (first
minimiser in list order). -/
def nearest_on_lines (p : Pt) : List Seg → Pt
  | [] => p
  | s :: rest => nearAux p (closestPointOnSeg p s) rest

/-- Unit-code to meters table; code 2 is mapped to 0.0254 twice in the
source (the explicit override is redundant). -/
def UNIT_TO_METERS (code : Nat) : Rq :=
  match code with
  | 0 => Rq.mk2 254 10000 (by decide)
  | 1 => Rq.mk2 254 10000 (by decide)
  | 2 => Rq.mk2 254 10000 (by decide)
  | 4 => Rq.mk2 1 1000 (by decide)
  | 5 => Rq.mk2 1 100 (by decide)
  | 6 => Rq.one
  | _ => Rq.mk2 254 10000 (by decide)

def EXTENSION_TOLERANCE : Rq := Rq.mk2 3 2 (by decide)

/-- The extensions list of both sources (dxf_app.py lines 60-66):
for every dangling endpoint, bridge to the nearest point of the union
of ALL rounded segments when closer than EXTENSION_TOLERANCE / scale.
Distances are compared squared. -/
def extensionsOf (rounded : List Seg) (scale : Rq) : List Seg :=
  let de := dead_ends rounded
  if de.isEmpty || rounded.isEmpty then []
  else
    let tol := Rq.div EXTENSION_TOLERANCE scale
    de.filterMap (fun p =>
      let nearest := nearest_on_lines p rounded
      if Rq.blt (sqDist p nearest) (Rq.mul tol tol) then some (p, nearest)
      else none)

/-! ## Planar noder (spec section 4.3) -/

def insertRq (t : Rq) : List Rq → List Rq
  | [] => [t]
  | u :: us => if Rq.ble t u then t :: u :: us else u :: insertRq t us

def sortRq (l : List Rq) : List Rq := l.foldr insertRq []

def dedupRqSorted : List Rq → List Rq
  | [] => []
  | [t] => [t]
  | t :: u :: us => if Rq.beq t u then dedupRqSorted (u :: us) else t :: dedupRqSorted (u :: us)

/-- Modelled from the spec: part of the Planar Noder, delegated by the
source to shapely unary_union, whose code is not in the repository.
Parameters (along A) of the points where segment B meets segment A:
a proper crossing or T-touch yields the intersection parameter, a
collinear overlap yields the clamped parameters of the endpoints of B. -/
def cutParams (A B : Seg) : List Rq :=
  if pBeq B.1 B.2 then []
  else
    let r := vsub A.2 A.1
    let s := vsub B.2 B.1
    let qp := vsub B.1 A.1
    let rxs := crossP r s
    if !(Rq.beq rxs Rq.zero) then
      let t := Rq.div (crossP qp s) rxs
      let u := Rq.div (crossP qp r) rxs
      if Rq.ble Rq.zero t && Rq.ble t Rq.one && Rq.ble Rq.zero u && Rq.ble u Rq.one
      then [t] else []
    else if !(Rq.beq (crossP qp r) Rq.zero) then []
    else
      let rr := dotP r r
      let t1 := Rq.div (dotP qp r) rr
      let t2 := Rq.div (dotP (vsub B.2 A.1) r) rr
      (if Rq.ble Rq.zero t1 && Rq.ble t1 Rq.one then [t1] else []) ++
        (if Rq.ble Rq.zero t2 && Rq.ble t2 Rq.one then [t2] else [])

def segPoint (A : Seg) (t : Rq) : Pt := vadd A.1 (smul t (vsub A.2 A.1))

def consecSegs (A : Seg) : List Rq → List Seg
  | t :: u :: rest => (segPoint A t, segPoint A u) :: consecSegs A (u :: rest)
  | _ => []

/-- Modelled from the spec: split one segment of the Planar Noder
input at every parameter where another segment meets it. -/
def subSegs (A : Seg) (cuts : List Rq) : List Seg :=
  consecSegs A (dedupRqSorted (sortRq (Rq.zero :: Rq.one :: cuts)))

def nodeOne (all : List Seg) (A : Seg) : List Seg :=
  if pBeq A.1 A.2 then []
  else subSegs A (all.flatMap (cutParams A))

/-- Value equality of undirected segments. -/
def segValBeq (s t : Seg) : Bool :=
  (pBeq s.1 t.1 && pBeq s.2 t.2) || (pBeq s.1 t.2 && pBeq s.2 t.1)

def dedupSegsAux (seen : List Seg) : List Seg → List Seg
  | [] => []
  | s :: rest =>
      if seen.any (segValBeq s) then dedupSegsAux seen rest
      else s :: dedupSegsAux (s :: seen) rest

def dedupSegs (l : List Seg) : List Seg := dedupSegsAux [] l

/-- Modelled from the spec: the Planar Noder (shapely unary_union in
the source, not in the repository).  Every pairwise crossing, touch or
collinear overlap becomes a shared vertex; duplicate pieces collapse;
zero-length pieces vanish. -/
def nodeSegments (segs : List Seg) : List Seg :=
  dedupSegs (segs.flatMap (nodeOne segs))

/-! ## Face Extractor (spec section 4.4) -/

/-- Degree of a vertex by value in an edge list. -/
def degV (es : List Seg) (v : Pt) : Nat :=
  es.countP (fun e => pBeq e.1 v || pBeq e.2 v)

def pruneStep (es : List Seg) : List Seg :=
  es.filter (fun e => decide (2 ≤ degV es e.1) && decide (2 ≤ degV es e.2))

/-- Iteratively drop edges with a dangling endpoint (polygonize
ignores dangles and cut edges). -/
def pruneDangling (es : List Seg) : List Seg :=
  (List.range es.length).foldl (fun acc _ => pruneStep acc) es

def dartBeq (d e : Seg) : Bool := pBeq d.1 e.1 && pBeq d.2 e.2

def dartsOf (es : List Seg) : List Seg := es.flatMap (fun e => [e, (e.2, e.1)])

/-- Class of direction d relative to reference direction ref:
0 on the ray of ref, 1 strictly counterclockwise side, 2 on the
opposite ray, 3 strictly clockwise side. -/
def angClass (ref d : Pt) : Nat :=
  if Rq.beq (crossP ref d) Rq.zero then
    (if Rq.blt Rq.zero (dotP ref d) then 0 else 2)
  else if Rq.blt Rq.zero (crossP ref d) then 1 else 3

/-- Counterclockwise-angle-from-ref comparison of two directions. -/
def angLt (ref d1 d2 : Pt) : Bool :=
  decide (angClass ref d1 < angClass ref d2) ||
    (angClass ref d1 == angClass ref d2 &&
      (angClass ref d1 == 1 || angClass ref d1 == 3) &&
      Rq.blt Rq.zero (crossP d1 d2))

/-- Modelled from the spec: the next edge in angular order at a
vertex (the face-tracing rule of spec section 4.4).  Among the darts
leaving the head of d, take the one of maximal counterclockwise angle
from the direction back to the tail of d. -/
def succDart (ds : List Seg) (d : Seg) : Seg :=
  let v := d.2
  let ref := vsub d.1 d.2
  let cands := ds.filter (fun e => pBeq e.1 v)
  match cands with
  | [] => (d.2, d.1)
  | c :: cs =>
      cs.foldl (fun best e =>
        if angLt ref (vsub best.2 best.1) (vsub e.2 e.1) then e else best) c

def walkFrom (ds : List Seg) : Nat → Seg → Seg → List Seg → Option (List Seg)
  | 0, _, _, _ => none
  | Nat.succ n, d0, d, acc =>
      let d2 := succDart ds d
      if dartBeq d2 d0 then some acc.reverse
      else walkFrom ds n d0 d2 (d2 :: acc)

def traceAllAux (all : List Seg) : List Seg → List Seg → List (List Seg)
  | _, [] => []
  | visited, d :: rest =>
      if visited.any (dartBeq d) then traceAllAux all visited rest
      else
        match walkFrom all (all.length + 1) d d [d] with
        | some cyc => cyc :: traceAllAux all (visited ++ cyc) rest
        | none => traceAllAux all (visited ++ [d]) rest

/-- Modelled from the spec: trace every minimal cycle of the noded
arrangement by repeatedly following the next edge in angular order. -/
def traceCycles (es : List Seg) : List (List Seg) :=
  let ds := dartsOf es
  traceAllAux ds [] ds

def pMemBeq (v : Pt) (l : List Pt) : Bool := l.any (pBeq v)

/-- Modelled from the spec: split a traced closed walk at repeated
vertices into minimal rings (a pinched maximal ring decomposes into
simple rings, as in the GEOS polygonizer the source delegates to). -/
def splitWalk : List Pt → List Pt → List (List Pt)
  | stack, [] => if stack.isEmpty then [] else [stack.reverse]
  | stack, v :: rest =>
      if pMemBeq v stack then
        let inner := stack.takeWhile (fun x => !(pBeq x v))
        match stack.dropWhile (fun x => !(pBeq x v)) with
        | [] => splitWalk (v :: stack) rest
        | w :: ws => (w :: inner.reverse) :: splitWalk (w :: ws) rest
      else splitWalk (v :: stack) rest

def shoelaceAux (p0 : Pt) : List Pt → Rq
  | [] => Rq.zero
  | [p] => crossP p p0
  | p :: q :: rest => Rq.add (crossP p q) (shoelaceAux p0 (q :: rest))

/-- Twice the signed area of a ring (closing back to its head). -/
def signedArea2 (ring : List Pt) : Rq :=
  match ring with
  | [] => Rq.zero
  | p0 :: _ => shoelaceAux p0 ring

/-- An output polygon: exterior ring without the closing repetition,
and its raw area in drawing units squared (shapely p.area). -/
structure Face where
  ring : List Pt
  area : Rq
deriving DecidableEq

/-- Modelled from the spec: the Face Extractor (shapely polygonize in
the source, not in the repository).  Prune dangling edges, trace
minimal cycles in angular order, split pinched walks into simple
rings, and keep the counterclockwise (bounded) ones. -/
def extractFaces (es : List Seg) : List Face :=
  let pruned := pruneDangling es
  let walks := (traceCycles pruned).map (List.map Prod.fst)
  let rings := walks.flatMap (splitWalk [])
  let pos := rings.filter (fun r => Rq.blt Rq.zero (signedArea2 r))
  pos.map (fun r => { ring := r, area := Rq.div (signedArea2 r) (Rq.ofInt 2) })

/-! ## Filtering and ranking (lines 73-74 of dxf_app.py) -/

/-- valid_polys: keep p iff p.area * scale^2 > 0.001, strictly. -/
def validPolys (scale : Rq) (polys : List Face) : List Face :=
  polys.filter (fun p =>
    Rq.blt (Rq.mk2 1 1000 (by decide)) (Rq.mul p.area (Rq.mul scale scale)))

def insertFaceDesc (p : Face) : List Face → List Face
  | [] => [p]
  | q :: qs => if Rq.ble q.area p.area then p :: q :: qs else q :: insertFaceDesc p qs

/-- Stable sort by raw area descending (list.sort key=area reverse=True). -/
def sortPolysDesc : List Face → List Face
  | [] => []
  | p :: ps => insertFaceDesc p (sortPolysDesc ps)

/-! ## The two pipelines -/

/-- Shared tail of both pipelines, from the rounded segment list on. -/
def corePolys (rounded : List Seg) (scale : Rq) : List Face :=
  let exts := extensionsOf rounded scale
  let noded := nodeSegments (rounded ++ exts)
  sortPolysDesc (validPolys scale (extractFaces noded))

/-- process_dxf of dxf_app.py over already-parsed entity records; the
unit code stands for the $INSUNITS header field.  none models an
exception escaping the function. -/
def process_dxf (ents : List Entity) (al : Option (List String)) (ucode : Nat) :
    Option (List Face) :=
  (extractApp al ents).map (fun lines => corePolys (roundedOf lines) (UNIT_TO_METERS ucode))

/-- One record of the JSON-style output list of process_dxf_geometry;
points is list(p.exterior.coords), with the closing repetition. -/
structure OutPoly where
  idx : Nat
  points : List Pt
  area_raw : Rq
  area_m2 : Rq
deriving DecidableEq

structure Bounds where
  min_x : Rq
  min_y : Rq
  max_x : Rq
  max_y : Rq
deriving DecidableEq

def closedRing (r : List Pt) : List Pt :=
  r ++ (match r with | [] => [] | p :: _ => [p])

def decorateFrom (scale : Rq) (i : Nat) : List Face → List OutPoly
  | [] => []
  | p :: ps =>
      { idx := i, points := closedRing p.ring, area_raw := p.area,
        area_m2 := Rq.mul p.area (Rq.mul scale scale) } :: decorateFrom scale (i + 1) ps

/-- enumerate(valid_polys) decorated into output records. -/
def decorate (scale : Rq) (polys : List Face) : List OutPoly :=
  decorateFrom scale 0 polys

def foldMinRq (first : Rq) (rest : List Rq) : Rq :=
  rest.foldl (fun a b => if Rq.ble a b then a else b) first

def foldMaxRq (first : Rq) (rest : List Rq) : Rq :=
  rest.foldl (fun a b => if Rq.ble a b then b else a) first

def boundsOf (ops : List OutPoly) : Bounds :=
  let xs := ops.flatMap (fun o => o.points.map Prod.fst)
  let ys := ops.flatMap (fun o => o.points.map Prod.snd)
  match xs, ys with
  | x :: xr, y :: yr =>
      { min_x := foldMinRq x xr, min_y := foldMinRq y yr,
        max_x := foldMaxRq x xr, max_y := foldMaxRq y yr }
  | _, _ =>
      { min_x := Rq.zero, min_y := Rq.zero,
        max_x := Rq.ofInt 100, max_y := Rq.ofInt 100 }

/-- process_dxf_geometry of dxf_utils.py over already-parsed entity
records. -/
def process_dxf_geometry (ents : List Entity) (al : Option (List String)) (ucode : Nat) :
    List OutPoly × Bounds :=
  let scale := UNIT_TO_METERS ucode
  let ops := decorate scale (corePolys (roundedOf (extractUtils al ents)) scale)
  (ops, boundsOf ops)

/-! ## Concrete inputs used in the scenario theorems -/

def ptI (x y : Int) : Pt := (Rq.ofInt x, Rq.ofInt y)

/-- Scenario B of the spec: unit square with the last segment
shortened by 0.0003 drawing units. -/
def scenarioB : List Entity :=
  [Entity.line "0" (ptI 0 0) (ptI 1 0),
   Entity.line "0" (ptI 1 0) (ptI 1 1),
   Entity.line "0" (ptI 1 1) (ptI 0 1),
   Entity.line "0" (ptI 0 1) (Rq.ofInt 0, Rq.mk2 3 10000 (by decide))]

/-- The rounded segment list process_dxf builds for scenario B. -/
def scenarioBRounded : List Seg := roundedOf ((extractApp none scenarioB).getD [])

/-- A clean unit square given as one closed polyline on layer A. -/
def squareEnts : List Entity :=
  [Entity.lwpolyline "A" [ptI 0 0, ptI 1 0, ptI 1 1, ptI 0 1] true]

/-- Two identical LINE records (duplicate geometry). -/
def dupLineEnts : List Entity :=
  [Entity.line "0" (ptI 0 0) (ptI 1 0), Entity.line "0" (ptI 0 0) (ptI 1 0)]

/-- A single segment, whose two endpoints are dangling. -/
def oneSeg : List Seg := [(ptI 0 0, ptI 1 0)]

/-- A face of raw area exactly 0.001. -/
def sliverFace : Face :=
  { ring := [ptI 0 0], area := Rq.mk2 1 1000 (by decide) }

/-! ## Value semantics of points and distances -/

namespace Rq

theorem den_ne (a : Rq) : ((a.den : ℚ)) ≠ 0 := by
  exact_mod_cast (Int.cast_ne_zero (α := ℚ)).mpr (ne_of_gt a.pos)

theorem den_pos_q (a : Rq) : (0 : ℚ) < (a.den : ℚ) := by
  exact_mod_cast a.pos

theorem toRat_ofInt (n : Int) : (ofInt n).toRat = (n : ℚ) := by
  simp [ofInt, toRat]

theorem toRat_zero : zero.toRat = 0 := by
  simp [zero, toRat_ofInt]

theorem toRat_one : one.toRat = 1 := by
  simp [one, toRat_ofInt]

theorem toRat_mk2 (n d : Int) (h : 0 < d) :
    (mk2 n d h).toRat = (n : ℚ) / (d : ℚ) := rfl

theorem toRat_add (a b : Rq) : (add a b).toRat = a.toRat + b.toRat := by
  unfold add toRat
  have ha := a.den_ne
  have hb := b.den_ne
  field_simp
  try push_cast
  try ring

theorem toRat_sub (a b : Rq) : (sub a b).toRat = a.toRat - b.toRat := by
  unfold sub toRat
  have ha := a.den_ne
  have hb := b.den_ne
  field_simp
  try push_cast
  try ring

theorem toRat_mul (a b : Rq) : (mul a b).toRat = a.toRat * b.toRat := by
  unfold mul toRat
  have ha := a.den_ne
  have hb := b.den_ne
  field_simp
  try push_cast
  try ring

theorem toRat_inv (a : Rq) : (inv a).toRat = (a.toRat)⁻¹ := by
  unfold inv toRat
  by_cases h : 0 < a.num
  · simp only [dif_pos h]
    rw [inv_div]
  · simp only [dif_neg h]
    by_cases h2 : a.num < 0
    · simp only [dif_pos h2]
      have ha := a.den_ne
      have hnum : ((a.num : ℚ)) ≠ 0 := by
        exact_mod_cast Int.ne_of_lt h2
      push_cast
      rw [inv_div]
      field_simp
    · simp only [dif_neg h2]
      have h0 : a.num = 0 := by omega
      simp [h0]

theorem toRat_div (a b : Rq) : (div a b).toRat = a.toRat / b.toRat := by
  unfold div
  rw [toRat_mul, toRat_inv, div_eq_mul_inv]

theorem beq_iff (a b : Rq) : beq a b = true ↔ a.toRat = b.toRat := by
  unfold beq toRat
  rw [beq_iff_eq, div_eq_div_iff a.den_ne b.den_ne]
  constructor
  · intro h; exact_mod_cast h
  · intro h; exact_mod_cast h

theorem ble_iff (a b : Rq) : ble a b = true ↔ a.toRat ≤ b.toRat := by
  unfold ble toRat
  rw [decide_eq_true_iff, div_le_div_iff₀ a.den_pos_q b.den_pos_q]
  constructor
  · intro h; exact_mod_cast h
  · intro h; exact_mod_cast h

theorem blt_iff (a b : Rq) : blt a b = true ↔ a.toRat < b.toRat := by
  unfold blt toRat
  rw [decide_eq_true_iff, div_lt_div_iff₀ a.den_pos_q b.den_pos_q]
  constructor
  · intro h; exact_mod_cast h
  · intro h; exact_mod_cast h

theorem beq_symm (a b : Rq) : beq a b = beq b a := by
  by_cases h : beq a b = true
  · have := (beq_iff a b).mp h
    rw [h, Eq.symm ((beq_iff b a).mpr this.symm)]
  · have h2 : ¬ beq b a = true := fun hc => h ((beq_iff a b).mpr ((beq_iff b a).mp hc).symm)
    simp only [Bool.not_eq_true] at h h2
    rw [h, h2]

theorem ble_total (a b : Rq) : ble a b = true ∨ ble b a = true := by
  rcases le_total a.toRat b.toRat with h | h
  · exact Or.inl ((ble_iff a b).mpr h)
  · exact Or.inr ((ble_iff b a).mpr h)

end Rq

def ptVal (p : Pt) : ℚ × ℚ := (p.1.toRat, p.2.toRat)



theorem pBeq_iff (p q : Pt) : pBeq p q = true ↔ ptVal p = ptVal q := by
  unfold pBeq ptVal
  simp [Rq.beq_iff, Prod.ext_iff]

theorem pBeq_refl (p : Pt) : pBeq p p = true := (pBeq_iff p p).mpr rfl

theorem pBeq_symm (p q : Pt) : pBeq p q = pBeq q p := by
  by_cases h : pBeq p q = true
  · rw [h, Eq.symm ((pBeq_iff q p).mpr ((pBeq_iff p q).mp h).symm)]
  · have h2 : ¬ pBeq q p = true :=
      fun hc => h ((pBeq_iff p q).mpr ((pBeq_iff q p).mp hc).symm)
    simp only [Bool.not_eq_true] at h h2
    rw [h, h2]

theorem sqDist_val (p q : Pt) : (sqDist p q).toRat =
    (p.1.toRat - q.1.toRat) ^ 2 + (p.2.toRat - q.2.toRat) ^ 2 := by
  unfold sqDist dotP vsub
  rw [Rq.toRat_add, Rq.toRat_mul, Rq.toRat_mul, Rq.toRat_sub, Rq.toRat_sub]
  ring

theorem sqDist_nonneg (p q : Pt) : 0 ≤ (sqDist p q).toRat := by
  rw [sqDist_val]
  positivity

theorem sqDist_eq_zero_iff (p q : Pt) : (sqDist p q).toRat = 0 ↔ ptVal p = ptVal q := by
  rw [sqDist_val]
  constructor
  · intro h
    have h1 : (p.1.toRat - q.1.toRat) ^ 2 = 0 ∧ (p.2.toRat - q.2.toRat) ^ 2 = 0 :=
      (add_eq_zero_iff_of_nonneg (sq_nonneg _) (sq_nonneg _)).mp h
    have e1 : p.1.toRat = q.1.toRat := by
      have := sq_eq_zero_iff.mp h1.1
      linarith
    have e2 : p.2.toRat = q.2.toRat := by
      have := sq_eq_zero_iff.mp h1.2
      linarith
    exact Prod.ext_iff.mpr ⟨e1, e2⟩
  · intro h
    have h1 := (Prod.ext_iff.mp h).1
    have h2 := (Prod.ext_iff.mp h).2
    simp only [ptVal] at h1 h2
    rw [h1, h2]
    ring

theorem vsub_val_x (p q : Pt) : (vsub p q).1.toRat = p.1.toRat - q.1.toRat := Rq.toRat_sub _ _

theorem vsub_val_y (p q : Pt) : (vsub p q).2.toRat = p.2.toRat - q.2.toRat := Rq.toRat_sub _ _

theorem vadd_val_x (p v : Pt) : (vadd p v).1.toRat = p.1.toRat + v.1.toRat := Rq.toRat_add _ _

theorem vadd_val_y (p v : Pt) : (vadd p v).2.toRat = p.2.toRat + v.2.toRat := Rq.toRat_add _ _

theorem smul_val_x (t : Rq) (v : Pt) : (smul t v).1.toRat = t.toRat * v.1.toRat := Rq.toRat_mul _ _

theorem smul_val_y (t : Rq) (v : Pt) : (smul t v).2.toRat = t.toRat * v.2.toRat := Rq.toRat_mul _ _

theorem dotP_val (v w : Pt) :
    (dotP v w).toRat = v.1.toRat * w.1.toRat + v.2.toRat * w.2.toRat := by
  unfold dotP
  rw [Rq.toRat_add, Rq.toRat_mul, Rq.toRat_mul]

/-! ## The gap-closing nearest point always is the dangling endpoint -/

theorem mem_addNodeG {ns : List Pt} {p x : Pt} (h : x ∈ addNodeG ns p) : x ∈ ns ∨ x = p := by
  unfold addNodeG at h
  split at h
  · exact Or.inl h
  · rcases List.mem_append.mp h with h1 | h1
    · exact Or.inl h1
    · exact Or.inr (List.mem_singleton.mp h1)

theorem mem_graphNodesAux :
    ∀ (segs : List Seg) (acc : List Pt) (x : Pt),
      x ∈ segs.foldl (fun ns s => addNodeG (addNodeG ns s.1) s.2) acc →
      x ∈ acc ∨ ∃ s ∈ segs, x = s.1 ∨ x = s.2 := by
  intro segs
  induction segs with
  | nil => intro acc x h; exact Or.inl h
  | cons s rest ih =>
      intro acc x h
      simp only [List.foldl_cons] at h
      rcases ih _ x h with h1 | h2
      · rcases mem_addNodeG h1 with h3 | h3
        · rcases mem_addNodeG h3 with h4 | h4
          · exact Or.inl h4
          · exact Or.inr ⟨s, List.mem_cons_self s rest, Or.inl h4⟩
        · exact Or.inr ⟨s, List.mem_cons_self s rest, Or.inr h3⟩
      · obtain ⟨t, ht, hx⟩ := h2
        exact Or.inr ⟨t, List.mem_cons_of_mem s ht, hx⟩

theorem mem_graphNodes {segs : List Seg} {x : Pt} (h : x ∈ graphNodes segs) :
    ∃ s ∈ segs, x = s.1 ∨ x = s.2 := by
  unfold graphNodes at h
  rcases mem_graphNodesAux segs [] x h with h1 | h1
  · cases h1
  · exact h1

theorem closest_self {p : Pt} {s : Seg} (h : p = s.1 ∨ p = s.2) :
    (sqDist p (closestPointOnSeg p s)).toRat = 0 := by
  unfold closestPointOnSeg
  by_cases hdd : Rq.beq (dotP (vsub s.2 s.1) (vsub s.2 s.1)) Rq.zero = true
  · simp only [hdd, if_true]
    have hz : (sqDist s.2 s.1).toRat = 0 := by
      have := (Rq.beq_iff _ _).mp hdd
      rw [Rq.toRat_zero] at this
      exact this
    rcases h with h | h
    · subst h
      exact (sqDist_eq_zero_iff _ _).mpr rfl
    · subst h
      exact hz
  · simp only [Bool.not_eq_true] at hdd
    simp only [hdd, Bool.false_eq_true, if_false]
    have hddv : (dotP (vsub s.2 s.1) (vsub s.2 s.1)).toRat ≠ 0 := by
      intro hc
      rw [Bool.eq_false_iff] at hdd
      exact hdd ((Rq.beq_iff _ _).mpr (by rw [hc, Rq.toRat_zero]))
    rcases h with h | h
    · subst h
      have ht : (Rq.div (dotP (vsub s.1 s.1) (vsub s.2 s.1))
          (dotP (vsub s.2 s.1) (vsub s.2 s.1))).toRat = 0 := by
        rw [Rq.toRat_div, dotP_val, vsub_val_x, vsub_val_y]
        have : s.1.1.toRat - s.1.1.toRat = 0 := by ring
        rw [this]
        have h2 : s.1.2.toRat - s.1.2.toRat = 0 := by ring
        rw [h2]
        simp
      have hb1 : Rq.blt (Rq.div (dotP (vsub s.1 s.1) (vsub s.2 s.1))
          (dotP (vsub s.2 s.1) (vsub s.2 s.1))) Rq.zero = false := by
        rw [Bool.eq_false_iff, Ne, Rq.blt_iff, ht, Rq.toRat_zero]
        norm_num
      have hb2 : Rq.blt Rq.one (Rq.div (dotP (vsub s.1 s.1) (vsub s.2 s.1))
          (dotP (vsub s.2 s.1) (vsub s.2 s.1))) = false := by
        rw [Bool.eq_false_iff, Ne, Rq.blt_iff, ht, Rq.toRat_one]
        norm_num
      simp only [hb1, hb2, Bool.false_eq_true, if_false]
      apply (sqDist_eq_zero_iff _ _).mpr
      unfold ptVal
      apply Prod.ext_iff.mpr
      constructor
      · rw [vadd_val_x, smul_val_x, ht]
        ring
      · rw [vadd_val_y, smul_val_y, ht]
        ring
    · subst h
      have ht : (Rq.div (dotP (vsub s.2 s.1) (vsub s.2 s.1))
          (dotP (vsub s.2 s.1) (vsub s.2 s.1))).toRat = 1 := by
        rw [Rq.toRat_div]
        exact div_self hddv
      have hb1 : Rq.blt (Rq.div (dotP (vsub s.2 s.1) (vsub s.2 s.1))
          (dotP (vsub s.2 s.1) (vsub s.2 s.1))) Rq.zero = false := by
        rw [Bool.eq_false_iff, Ne, Rq.blt_iff, ht, Rq.toRat_zero]
        norm_num
      have hb2 : Rq.blt Rq.one (Rq.div (dotP (vsub s.2 s.1) (vsub s.2 s.1))
          (dotP (vsub s.2 s.1) (vsub s.2 s.1))) = false := by
        rw [Bool.eq_false_iff, Ne, Rq.blt_iff, ht, Rq.toRat_one]
        norm_num
      simp only [hb1, hb2, Bool.false_eq_true, if_false]
      apply (sqDist_eq_zero_iff _ _).mpr
      unfold ptVal
      apply Prod.ext_iff.mpr
      constructor
      · rw [vadd_val_x, smul_val_x, ht, vsub_val_x]
        ring
      · rw [vadd_val_y, smul_val_y, ht, vsub_val_y]
        ring

theorem nearAux_min (p : Pt) :
    ∀ (rest : List Seg) (best : Pt),
      (sqDist p (nearAux p best rest)).toRat ≤ (sqDist p best).toRat ∧
      ∀ s ∈ rest,
        (sqDist p (nearAux p best rest)).toRat ≤ (sqDist p (closestPointOnSeg p s)).toRat := by
  intro rest
  induction rest with
  | nil =>
      intro best
      refine ⟨le_refl _, ?_⟩
      intro s hs
      cases hs
  | cons s ss ih =>
      intro best
      by_cases hb : Rq.blt (sqDist p (closestPointOnSeg p s)) (sqDist p best) = true
      · have hlt := (Rq.blt_iff _ _).mp hb
        simp only [nearAux, hb, if_true]
        refine ⟨le_trans (ih (closestPointOnSeg p s)).1 (le_of_lt hlt), ?_⟩
        intro t ht
        rcases List.mem_cons.mp ht with h1 | h1
        · subst h1
          exact (ih (closestPointOnSeg p t)).1
        · exact (ih (closestPointOnSeg p s)).2 t h1
      · simp only [Bool.not_eq_true] at hb
        have hge : (sqDist p best).toRat ≤ (sqDist p (closestPointOnSeg p s)).toRat := by
          rw [Bool.eq_false_iff, Ne, Rq.blt_iff] at hb
          exact le_of_not_lt hb
        simp only [nearAux, hb, Bool.false_eq_true, if_false]
        refine ⟨(ih best).1, ?_⟩
        intro t ht
        rcases List.mem_cons.mp ht with h1 | h1
        · subst h1
          exact le_trans (ih best).1 hge
        · exact (ih best).2 t h1

theorem nearest_self {rs : List Seg} {p : Pt} (h : ∃ s ∈ rs, p = s.1 ∨ p = s.2) :
    pBeq (nearest_on_lines p rs) p = true ∧ (sqDist p (nearest_on_lines p rs)).toRat = 0 := by
  obtain ⟨s, hs, hps⟩ := h
  cases rs with
  | nil => cases hs
  | cons s0 ss =>
      have hmin := nearAux_min p ss (closestPointOnSeg p s0)
      have hle : (sqDist p (nearest_on_lines p (s0 :: ss))).toRat ≤ 0 := by
        rcases List.mem_cons.mp hs with h1 | h1
        · subst h1
          calc (sqDist p (nearest_on_lines p (s :: ss))).toRat
              ≤ (sqDist p (closestPointOnSeg p s)).toRat := hmin.1
            _ = 0 := closest_self hps
        · calc (sqDist p (nearest_on_lines p (s0 :: ss))).toRat
              ≤ (sqDist p (closestPointOnSeg p s)).toRat := hmin.2 s h1
            _ = 0 := closest_self hps
      have hz : (sqDist p (nearest_on_lines p (s0 :: ss))).toRat = 0 :=
        le_antisymm hle (sqDist_nonneg _ _)
      refine ⟨?_, hz⟩
      exact (pBeq_iff _ _).mpr ((sqDist_eq_zero_iff _ _).mp hz).symm

/-- Claim C1 (code bug): in the Gap-Closing Graph Builder of
process_dxf and process_dxf_geometry, the candidate geometry for the
nearest-point query is MultiLineString(rounded), the union of ALL
rounded segments including those touching the dangling endpoint.
Hence for every dangling endpoint p the selected nearest point is p
itself and the minimum distance is 0, contradicting the claim that the
segments touching p are excluded and that the nearest point is never p. -/
theorem c1_nearest_point_of_dangling_endpoint_is_itself
    (rounded : List Seg) (p : Pt) (h : p ∈ dead_ends rounded) :
    pBeq (nearest_on_lines p rounded) p = true ∧
      (sqDist p (nearest_on_lines p rounded)).toRat = 0 := by
  have hn : p ∈ graphNodes rounded := (List.mem_filter.mp h).1
  exact nearest_self (mem_graphNodes hn)

/-- Witness for C1 at a single segment from (0,0) to (1,0): the origin
is a dangling endpoint and the computed nearest point equals it. -/
theorem c1_witness :
    (ptI 0 0) ∈ dead_ends oneSeg ∧
      pBeq (nearest_on_lines (ptI 0 0) oneSeg) (ptI 0 0) = true :=
  ⟨by decide,
   (c1_nearest_point_of_dangling_endpoint_is_itself oneSeg (ptI 0 0) (by decide)).1⟩

/-- Claim C2 counterexample: on scenario B (unit square, one corner
segment shortened by 0.0003), rounding to 3 decimals snaps the
shortened endpoint back onto the corner, so there is no dangling
endpoint and NO bridging segment is synthesized, refuting the claim
that the pipeline bridges this gap. -/
theorem c2_counterexample_no_bridge_synthesized :
    dead_ends scenarioBRounded = [] ∧
      extensionsOf scenarioBRounded (UNIT_TO_METERS 6) = [] := by
  decide

/-- Claim C2 amended: on scenario B with scale 1.0 the pipeline
produces exactly one polygon, of raw area 1, but via the 3-decimal
rounding of coordinates closing the 0.0003 gap, with no bridging
segment synthesized. -/
theorem c2_amended_rounding_closes_gap_one_polygon :
    (process_dxf scenarioB none 6).map List.length = some 1 ∧
      ((process_dxf_geometry scenarioB none 6).1).map (fun o => Rq.beq o.area_raw Rq.one)
        = [true] ∧
      extensionsOf scenarioBRounded (UNIT_TO_METERS 6) = [] := by
  decide

/-! ## Sortedness of the ranked output (area monotonicity) -/

theorem mem_insertFaceDesc {x p : Face} :
    ∀ {l : List Face}, x ∈ insertFaceDesc p l ↔ x = p ∨ x ∈ l := by
  intro l
  induction l with
  | nil => simp [insertFaceDesc]
  | cons q qs ih =>
      by_cases hb : Rq.ble q.area p.area = true
      · simp [insertFaceDesc, hb, List.mem_cons]
      · simp only [Bool.not_eq_true] at hb
        simp [insertFaceDesc, hb, List.mem_cons, ih]
        tauto

theorem mem_sortPolysDesc {x : Face} :
    ∀ {l : List Face}, x ∈ sortPolysDesc l ↔ x ∈ l := by
  intro l
  induction l with
  | nil => simp [sortPolysDesc]
  | cons p ps ih =>
      simp [sortPolysDesc, mem_insertFaceDesc, List.mem_cons, ih]

theorem pairwise_insertFaceDesc {p : Face} :
    ∀ {l : List Face},
      List.Pairwise (fun a b : Face => b.area.toRat ≤ a.area.toRat) l →
      List.Pairwise (fun a b : Face => b.area.toRat ≤ a.area.toRat) (insertFaceDesc p l) := by
  intro l
  induction l with
  | nil =>
      intro _
      simp [insertFaceDesc]
  | cons q qs ih =>
      intro h
      by_cases hb : Rq.ble q.area p.area = true
      · simp only [insertFaceDesc, hb, if_true]
        refine List.Pairwise.cons ?_ h
        intro b hbmem
        rcases List.mem_cons.mp hbmem with h1 | h1
        · subst h1
          exact (Rq.ble_iff _ _).mp hb
        · calc b.area.toRat ≤ q.area.toRat := (List.pairwise_cons.mp h).1 b h1
            _ ≤ p.area.toRat := (Rq.ble_iff _ _).mp hb
      · have hlt : p.area.toRat < q.area.toRat := by
          rw [Bool.not_eq_true, Bool.eq_false_iff, Ne, Rq.ble_iff] at hb
          exact lt_of_not_le hb
        simp only [Bool.not_eq_true] at hb
        simp only [insertFaceDesc, hb, Bool.false_eq_true, if_false]
        refine List.Pairwise.cons ?_ (ih (List.pairwise_cons.mp h).2)
        intro b hbmem
        rcases mem_insertFaceDesc.mp hbmem with h1 | h1
        · subst h1
          exact le_of_lt hlt
        · exact (List.pairwise_cons.mp h).1 b h1

theorem pairwise_sortPolysDesc :
    ∀ (l : List Face),
      List.Pairwise (fun a b : Face => b.area.toRat ≤ a.area.toRat) (sortPolysDesc l) := by
  intro l
  induction l with
  | nil => simp [sortPolysDesc]
  | cons p ps ih => exact pairwise_insertFaceDesc ih

theorem mem_decorateFrom {o : OutPoly} {scale : Rq} :
    ∀ {l : List Face} {i : Nat}, o ∈ decorateFrom scale i l → ∃ p ∈ l, o.area_raw = p.area := by
  intro l
  induction l with
  | nil => intro i h; cases h
  | cons p ps ih =>
      intro i h
      rcases List.mem_cons.mp h with h1 | h1
      · exact ⟨p, List.mem_cons_self p ps, by rw [h1]⟩
      · obtain ⟨q, hq, he⟩ := ih h1
        exact ⟨q, List.mem_cons_of_mem p hq, he⟩

theorem pairwise_decorateFrom {scale : Rq} :
    ∀ {l : List Face} {i : Nat},
      List.Pairwise (fun a b : Face => b.area.toRat ≤ a.area.toRat) l →
      List.Pairwise (fun a b : OutPoly => b.area_raw.toRat ≤ a.area_raw.toRat)
        (decorateFrom scale i l) := by
  intro l
  induction l with
  | nil => intro i _; exact List.Pairwise.nil
  | cons p ps ih =>
      intro i h
      refine List.Pairwise.cons ?_ (ih (List.pairwise_cons.mp h).2)
      intro o ho
      obtain ⟨q, hq, he⟩ := mem_decorateFrom ho
      rw [he]
      exact (List.pairwise_cons.mp h).1 q hq

theorem process_dxf_geometry_fst (e : List Entity) (a : Option (List String)) (u : Nat) :
    (process_dxf_geometry e a u).1 =
      decorate (UNIT_TO_METERS u) (corePolys (roundedOf (extractUtils a e)) (UNIT_TO_METERS u)) := by
  unfold process_dxf_geometry
  rfl

theorem corePolys_eq (r : List Seg) (s : Rq) :
    corePolys r s =
      sortPolysDesc (validPolys s (extractFaces (nodeSegments (r ++ extensionsOf r s))))  :=
  rfl

theorem process_dxf_some {a : Option (List String)} {e : List Entity} {ls : List Seg}
    (u : Nat) (h : extractApp a e = some ls) :
    process_dxf e a u = some (corePolys (roundedOf ls) (UNIT_TO_METERS u)) := by
  unfold process_dxf
  rw [h]
  rfl

/-- Claim C3: for every input, both pipelines return the polygon list
sorted by raw area descending; every consecutive pair satisfies
areaRaw(i) >= areaRaw(i+1), stated as the pairwise descending order of
the returned lists. -/
theorem c3_output_sorted_by_raw_area_descending
    (ents : List Entity) (al : Option (List String)) (ucode : Nat) :
    List.Pairwise (fun a b : OutPoly => b.area_raw.toRat ≤ a.area_raw.toRat)
      ((process_dxf_geometry ents al ucode).1) ∧
    List.Pairwise (fun a b : Face => b.area.toRat ≤ a.area.toRat)
      ((process_dxf ents al ucode).getD []) := by
  constructor
  · rw [process_dxf_geometry_fst, corePolys_eq]
    exact pairwise_decorateFrom (pairwise_sortPolysDesc _)
  · cases h : extractApp al ents with
    | none =>
        unfold process_dxf
        rw [h]
        exact List.Pairwise.nil
    | some ls =>
        rw [process_dxf_some ucode h]
        rw [Option.getD_some, corePolys_eq]
        exact pairwise_sortPolysDesc _

/-! ## Area filtering boundary (claim C4) -/

/-- Claim C4 counterexample: a face whose scaled area is EXACTLY the
minimum 0.001 is not below the minimum, yet the filter (which keeps
only areas strictly above 0.001) drops it. -/
theorem c4_counterexample_boundary_face_dropped :
    sliverFace ∈ [sliverFace] ∧
      sliverFace ∉ validPolys Rq.one [sliverFace] ∧
      ¬ (sliverFace.area.toRat * (Rq.one.toRat * Rq.one.toRat) < 1 / 1000) := by
  refine ⟨by decide, by decide, ?_⟩
  have h1 : sliverFace.area.toRat = 1 / 1000 := by
    unfold sliverFace
    rw [Rq.toRat_mk2]
    norm_num
  rw [h1, Rq.toRat_one]
  norm_num

/-- Claim C4 amended: a face is dropped by the filter iff its scaled
area (areaRaw times scale squared) is at most 0.001, i.e. not strictly
above the minimum; faces with scaled area strictly above 0.001 are
kept. -/
theorem c4_amended_face_dropped_iff_scaled_area_at_most_min
    (polys : List Face) (scale : Rq) (f : Face) (h : f ∈ polys) :
    f ∉ validPolys scale polys ↔
      f.area.toRat * (scale.toRat * scale.toRat) ≤ 1 / 1000 := by
  have hm : f ∈ validPolys scale polys ↔
      Rq.blt (Rq.mk2 1 1000 (by decide)) (Rq.mul f.area (Rq.mul scale scale)) = true := by
    unfold validPolys
    rw [List.mem_filter]
    simp [h]
  rw [hm, Rq.blt_iff, Rq.toRat_mk2, Rq.toRat_mul, Rq.toRat_mul]
  rw [show (((1 : Int) : ℚ) / ((1000 : Int) : ℚ)) = 1 / 1000 by norm_num]
  exact not_lt

/-- Witness for C4 amended at the boundary face and scale 1. -/
theorem c4_witness :
    sliverFace ∉ validPolys Rq.one [sliverFace] ↔
      sliverFace.area.toRat * (Rq.one.toRat * Rq.one.toRat) ≤ 1 / 1000 :=
  c4_amended_face_dropped_iff_scaled_area_at_most_min [sliverFace] Rq.one sliverFace
    (by decide)

/-! ## Zero-length segments are discarded (claim C5) -/

/-- Claim C5: the canonical rounded list is exactly the rounded input
segments whose rounded endpoints differ: every segment whose endpoints
coincide after rounding is discarded, and every retained segment has
distinct rounded endpoints. -/
theorem c5_rounding_filter_drops_degenerate_segments (lines : List Seg) :
    (roundedOf lines).Forall (fun t => pBeq t.1 t.2 = false) ∧
      roundedOf lines =
        (lines.map (fun s => (roundPt s.1, roundPt s.2))).filter
          (fun t => !(pBeq t.1 t.2)) := by
  induction lines with
  | nil => exact ⟨trivial, rfl⟩
  | cons s rest ih =>
      obtain ⟨a, b⟩ := s
      by_cases h : pBeq (roundPt a) (roundPt b) = true
      · constructor
        · simpa [roundedOf, h] using ih.1
        · simp [roundedOf, h, ih.2]
      · simp only [Bool.not_eq_true] at h
        constructor
        · have : (roundedOf ((a, b) :: rest)) =
              (roundPt a, roundPt b) :: roundedOf rest := by
            simp [roundedOf, h]
          rw [this, List.forall_cons]
          exact ⟨h, ih.1⟩
        · simp [roundedOf, h, ih.2]

/-! ## Duplicate segments and node degrees (claim C6) -/

/-- Claim C6 counterexample: for two identical LINE records the
rounded list handed to the graph builder contains the same unordered
endpoint pair twice, so it is not a deduplicated set. -/
theorem c6_counterexample_duplicate_segments_survive :
    ¬ List.Nodup ((roundedOf ((extractApp none dupLineEnts).getD [])).map normPair) := by
  decide

theorem addEdgeG_nodup {acc : List Seg} {s : Seg} (h : acc.Nodup) :
    (addEdgeG acc s).Nodup := by
  unfold addEdgeG
  split
  · exact h
  · rename_i hn
    simp [List.nodup_append, h, hn]

theorem mem_addEdgeG {acc : List Seg} {s e : Seg} :
    e ∈ addEdgeG acc s ↔ e ∈ acc ∨ e = normPair s := by
  unfold addEdgeG
  split
  · rename_i hmem
    constructor
    · exact Or.inl
    · intro h
      rcases h with h | h
      · exact h
      · rw [h]; exact hmem
  · simp [List.mem_append]

theorem graphEdges_aux :
    ∀ (l : List Seg) (acc : List Seg), acc.Nodup →
      (l.foldl addEdgeG acc).Nodup ∧
        ∀ e, e ∈ l.foldl addEdgeG acc ↔ (e ∈ acc ∨ e ∈ l.map normPair) := by
  intro l
  induction l with
  | nil =>
      intro acc h
      exact ⟨h, by simp⟩
  | cons s rest ih =>
      intro acc h
      simp only [List.foldl_cons]
      obtain ⟨h1, h2⟩ := ih (addEdgeG acc s) (addEdgeG_nodup h)
      refine ⟨h1, ?_⟩
      intro e
      rw [h2 e, mem_addEdgeG]
      simp [List.mem_cons]
      tauto

theorem graphEdges_nodup (segs : List Seg) : (graphEdges segs).Nodup :=
  (graphEdges_aux segs [] List.nodup_nil).1

theorem mem_graphEdges {segs : List Seg} {e : Seg} :
    e ∈ graphEdges segs ↔ e ∈ segs.map normPair := by
  have := (graphEdges_aux segs [] List.nodup_nil).2 e
  simpa using this

/-- Claim C6 amended: the rounded list may contain duplicates, but the
connectivity graph is simple, so the degree of every node equals the
number of DISTINCT unordered rounded endpoint pairs incident to it. -/
theorem c6_amended_degree_counts_distinct_incident_pairs
    (lines : List Seg) (n : Pt) :
    degreeG (graphEdges (roundedOf lines)) n =
      (((roundedOf lines).map normPair).dedup).countP
        (fun e => decide (e.1 = n) || decide (e.2 = n)) := by
  have h1 : (graphEdges (roundedOf lines)).Nodup := graphEdges_nodup _
  have h2 : ∀ e : Seg, e ∈ graphEdges (roundedOf lines) ↔
      e ∈ ((roundedOf lines).map normPair).dedup := by
    intro e
    rw [mem_graphEdges, List.mem_dedup]
  have hperm : List.Perm (graphEdges (roundedOf lines))
      (((roundedOf lines).map normPair).dedup) :=
    List.perm_of_nodup_nodup_toFinset_eq h1 (List.nodup_dedup _)
      (Finset.ext fun x => by rw [List.mem_toFinset, List.mem_toFinset, h2])
  unfold degreeG
  exact hperm.countP_eq _

/-! ## Malformed records (claim C7) -/

/-- Claim C7 counterexample: a closed LWPOLYLINE record with zero
points makes process_dxf evaluate points[-1] on an empty list, an
uncaught IndexError; the pipeline aborts instead of skipping the
record, and no diagnostic counts exist in either return value. -/
theorem c7_counterexample_closed_empty_polyline_aborts :
    process_dxf [Entity.lwpolyline "0" [] true] none 6 = none := by
  decide

/-- Claim C7 amended: records with fewer than 2 points contribute no
segments and never abort process_dxf_geometry; process_dxf also skips
them, except that a closed polyline with zero points aborts it; no
diagnostic counts are returned by either function. -/
theorem c7_amended_short_records_skipped :
    (∀ (layer : String) (pts : List Pt) (closed : Bool) (rest : List Entity)
        (al : Option (List String)), pts.length < 2 →
        extractUtils al (Entity.lwpolyline layer pts closed :: rest) =
          extractUtils al rest) ∧
    (∀ (layer : String) (pts : List Pt) (closed : Bool) (rest : List Entity)
        (al : Option (List String)), pts.length < 2 → ¬ (closed = true ∧ pts = []) →
        Option.map roundedOf (extractApp al (Entity.lwpolyline layer pts closed :: rest)) =
          Option.map roundedOf (extractApp al rest)) ∧
    (∀ (layer : String) (rest : List Entity),
        extractApp none (Entity.lwpolyline layer [] true :: rest) = none) := by
  refine ⟨?_, ?_, ?_⟩
  · intro layer pts closed rest al h
    rcases pts with _ | ⟨p, _ | ⟨q, tl⟩⟩
    · simp [extractUtils, entitySegsUtils, Entity.layer]
    · simp [extractUtils, entitySegsUtils, Entity.layer]
    · simp at h
      omega
  · intro layer pts closed rest al h hne
    by_cases hk : keptApp al (Entity.lwpolyline layer pts closed).layer = true
    · rcases pts with _ | ⟨p, _ | ⟨q, tl⟩⟩
      · cases closed with
        | true => exact absurd ⟨rfl, rfl⟩ hne
        | false =>
            simp only [extractApp, hk, if_true, entitySegsApp]
            cases extractApp al rest with
            | none => rfl
            | some m => simp [polyPairs]
      · cases closed with
        | true =>
            simp only [extractApp, hk, if_true, entitySegsApp]
            cases extractApp al rest with
            | none => rfl
            | some m =>
                show some (roundedOf ((p, p) :: m)) = some (roundedOf m)
                simp [roundedOf, pBeq_refl]
        | false =>
            simp only [extractApp, hk, if_true, entitySegsApp]
            cases extractApp al rest with
            | none => rfl
            | some m => simp [polyPairs]
      · simp at h
        omega
    · simp only [Bool.not_eq_true] at hk
      simp [extractApp, hk]
  · intro layer rest
    rfl

/-- Witness for C7 amended at a one-point closed polyline and the
zero-point closed polyline. -/
theorem c7_witness :
    (extractUtils none [Entity.lwpolyline "0" [ptI 0 0] true] = extractUtils none []) ∧
      (Option.map roundedOf (extractApp none [Entity.lwpolyline "0" [ptI 0 0] true]) =
        Option.map roundedOf (extractApp none [])) ∧
      (extractApp none [Entity.lwpolyline "0" [] true] = none) :=
  ⟨c7_amended_short_records_skipped.1 "0" [ptI 0 0] true [] none (by decide),
   c7_amended_short_records_skipped.2.1 "0" [ptI 0 0] true [] none (by decide) (by simp),
   c7_amended_short_records_skipped.2.2 "0" []⟩

/-! ## Ring simplicity (claim C8) -/

theorem dropWhile_head_false {p : Pt → Bool} :
    ∀ {l : List Pt} {w : Pt} {ws : List Pt}, l.dropWhile p = w :: ws → p w = false := by
  intro l
  induction l with
  | nil => intro w ws h; cases h
  | cons a tl ih =>
      intro w ws h
      by_cases hp : p a = true
      · rw [List.dropWhile_cons] at h
        simp only [hp, if_true] at h
        exact ih h
      · simp only [Bool.not_eq_true] at hp
        rw [List.dropWhile_cons] at h
        simp only [hp, Bool.false_eq_true, if_false] at h
        rw [← (List.cons.injEq a tl w ws).mp h |>.1]
        exact hp

theorem dropWhile_ne_nil_of_exists {p : Pt → Bool} :
    ∀ {l : List Pt}, (∃ x ∈ l, p x = false) → l.dropWhile p ≠ [] := by
  intro l
  induction l with
  | nil =>
      intro h
      obtain ⟨x, hx, _⟩ := h
      cases hx
  | cons a tl ih =>
      intro h
      obtain ⟨x, hx, hpx⟩ := h
      by_cases hp : p a = true
      · rw [List.dropWhile_cons]
        simp only [hp, if_true]
        rcases List.mem_cons.mp hx with h1 | h1
        · subst h1
          rw [hpx] at hp
          cases hp
        · exact ih ⟨x, h1, hpx⟩
      · simp only [Bool.not_eq_true] at hp
        rw [List.dropWhile_cons]
        simp only [hp, Bool.false_eq_true, if_false]
        exact List.cons_ne_nil a tl

theorem pairwise_pbeq_reverse {l : List Pt}
    (h : List.Pairwise (fun a b => pBeq a b = false) l) :
    List.Pairwise (fun a b => pBeq a b = false) l.reverse := by
  rw [List.pairwise_reverse]
  refine h.imp ?_
  intro a b hab
  rwa [pBeq_symm]

theorem pbeq_trans_val {a b c : Pt} (h1 : pBeq a b = true) (h2 : pBeq b c = true) :
    pBeq a c = true :=
  (pBeq_iff a c).mpr (((pBeq_iff a b).mp h1).trans ((pBeq_iff b c).mp h2))

theorem splitWalk_distinct :
    ∀ (rest : List Pt) (stack : List Pt),
      List.Pairwise (fun a b => pBeq a b = false) stack →
      ∀ r ∈ splitWalk stack rest, List.Pairwise (fun a b => pBeq a b = false) r := by
  intro rest
  induction rest with
  | nil =>
      intro stack hs r hr
      unfold splitWalk at hr
      split at hr
      · cases hr
      · rw [List.mem_singleton.mp hr]
        exact pairwise_pbeq_reverse hs
  | cons v rs ih =>
      intro stack hs r hr
      by_cases hc : pMemBeq v stack = true
      · have hex : ∃ x ∈ stack, (fun x => !(pBeq x v)) x = false := by
          unfold pMemBeq at hc
          obtain ⟨x, hx, hpx⟩ := List.any_eq_true.mp hc
          refine ⟨x, hx, ?_⟩
          have hvx : pBeq x v = true := by rw [pBeq_symm]; exact hpx
          simp [hvx]
        cases hd : stack.dropWhile (fun x => !(pBeq x v)) with
        | nil => exact absurd hd (dropWhile_ne_nil_of_exists hex)
        | cons w ws =>
            have hw : pBeq w v = true := by
              have := dropWhile_head_false hd
              simpa using this
            have hstack2 : List.Pairwise (fun a b => pBeq a b = false) (w :: ws) := by
              rw [← hd]
              exact hs.sublist (List.dropWhile_sublist _)
            have hrw : splitWalk stack (v :: rs) =
                (w :: (stack.takeWhile (fun x => !(pBeq x v))).reverse) ::
                  splitWalk (w :: ws) rs := by
              simp only [splitWalk, hc, if_true, hd]
            rw [hrw] at hr
            rcases List.mem_cons.mp hr with h1 | h1
            · subst h1
              refine List.Pairwise.cons ?_
                (pairwise_pbeq_reverse (hs.sublist (List.takeWhile_sublist _)))
              intro x hx
              rw [List.mem_reverse] at hx
              have hxv : pBeq x v = false := by
                have := List.mem_takeWhile_imp hx
                simpa using this
              by_contra hcc
              rw [Bool.not_eq_false] at hcc
              have hxw : pBeq x w = true := by rw [pBeq_symm]; exact hcc
              rw [pbeq_trans_val hxw hw] at hxv
              cases hxv
            · exact ih (w :: ws) hstack2 r h1
      · simp only [Bool.not_eq_true] at hc
        have hstack2 : List.Pairwise (fun a b => pBeq a b = false) (v :: stack) := by
          refine List.Pairwise.cons ?_ hs
          intro x hx
          by_contra hcc
          rw [Bool.not_eq_false] at hcc
          have : stack.any (pBeq v) = true := List.any_eq_true.mpr ⟨x, hx, hcc⟩
          rw [show stack.any (pBeq v) = pMemBeq v stack from rfl, hc] at this
          cases this
        have hrw : splitWalk stack (v :: rs) = splitWalk (v :: stack) rs := by
          simp only [splitWalk, hc, Bool.false_eq_true, if_false]
        rw [hrw] at hr
        exact ih (v :: stack) hstack2 r hr

theorem extractFaces_rings_distinct (es : List Seg) :
    ∀ f ∈ extractFaces es, List.Pairwise (fun a b => pBeq a b = false) f.ring := by
  intro f hf
  unfold extractFaces at hf
  obtain ⟨r, hr, hfr⟩ := List.mem_map.mp hf
  obtain ⟨hr2, _⟩ := List.mem_filter.mp hr
  obtain ⟨w, _, hrw⟩ := List.mem_flatMap.mp hr2
  have := splitWalk_distinct w [] List.Pairwise.nil r hrw
  rw [← hfr]
  exact this

theorem corePolys_rings_distinct (rounded : List Seg) (scale : Rq) :
    ∀ f ∈ corePolys rounded scale,
      List.Pairwise (fun a b => pBeq a b = false) f.ring := by
  intro f hf
  rw [corePolys_eq] at hf
  have h1 := mem_sortPolysDesc.mp hf
  have h2 := (List.mem_filter.mp h1).1
  exact extractFaces_rings_distinct _ f h2

theorem mem_decorateFrom_points {o : OutPoly} {scale : Rq} :
    ∀ {l : List Face} {i : Nat},
      o ∈ decorateFrom scale i l → ∃ p ∈ l, o.points = closedRing p.ring := by
  intro l
  induction l with
  | nil => intro i h; cases h
  | cons p ps ih =>
      intro i h
      rcases List.mem_cons.mp h with h1 | h1
      · exact ⟨p, List.mem_cons_self p ps, by rw [h1]⟩
      · obtain ⟨q, hq, he⟩ := ih h1
        exact ⟨q, List.mem_cons_of_mem p hq, he⟩

theorem closedRing_dropLast (r : List Pt) : (closedRing r).dropLast = r := by
  cases r with
  | nil => rfl
  | cons p tl =>
      show ((p :: tl) ++ [p]).dropLast = p :: tl
      rw [List.dropLast_concat]

/-- Claim C8: every output polygon ring, with the closing repetition
of the first vertex removed, has pairwise value-distinct vertices.
For process_dxf the ring field carries no closing repetition; for
process_dxf_geometry the points list repeats the first vertex at the
end, so dropLast removes exactly the closing repetition. -/
theorem c8_ring_vertices_pairwise_distinct
    (ents : List Entity) (al : Option (List String)) (ucode : Nat) :
    ((process_dxf ents al ucode).getD []).Forall
      (fun f => List.Pairwise (fun a b => pBeq a b = false) f.ring) ∧
    ((process_dxf_geometry ents al ucode).1).Forall
      (fun o => List.Pairwise (fun a b => pBeq a b = false) o.points.dropLast) := by
  constructor
  · cases h : extractApp al ents with
    | none =>
        unfold process_dxf
        rw [h]
        trivial
    | some ls =>
        rw [process_dxf_some ucode h, Option.getD_some]
        rw [List.forall_iff_forall_mem]
        exact corePolys_rings_distinct _ _
  · rw [process_dxf_geometry_fst]
    rw [List.forall_iff_forall_mem]
    intro o ho
    unfold decorate at ho
    obtain ⟨p, hp, hpt⟩ := mem_decorateFrom_points ho
    rw [hpt, closedRing_dropLast]
    exact corePolys_rings_distinct _ _ p hp

/-! ## Determinism (claim C9) -/

/-- Claim C9: the pipelines are pure functions of their input; two
runs on identical records, layer selection and unit code yield
identical results (order and vertices included). -/
theorem c9_pipeline_deterministic
    (e1 e2 : List Entity) (al1 al2 : Option (List String)) (u1 u2 : Nat)
    (he : e1 = e2) (ha : al1 = al2) (hu : u1 = u2) :
    process_dxf e1 al1 u1 = process_dxf e2 al2 u2 ∧
      process_dxf_geometry e1 al1 u1 = process_dxf_geometry e2 al2 u2 := by
  subst he
  subst ha
  subst hu
  exact ⟨rfl, rfl⟩

/-- Witness for C9: two runs on scenario B coincide. -/
theorem c9_witness :
    process_dxf scenarioB none 6 = process_dxf scenarioB none 6 ∧
      process_dxf_geometry scenarioB none 6 = process_dxf_geometry scenarioB none 6 :=
  c9_pipeline_deterministic scenarioB scenarioB none none 6 6 rfl rfl rfl

/-! ## Equivalence of the two pipelines (claim C10) -/

/-- Claim C10 counterexample: on the unit-square polyline with the
EMPTY layer selection, both functions are defined, but process_dxf
filters every entity out and returns no polygon while
process_dxf_geometry disables filtering for an empty selection and
returns one polygon. -/
theorem c10_counterexample_empty_layer_selection_diverges :
    process_dxf squareEnts (some []) 6 = some [] ∧
      ((process_dxf_geometry squareEnts (some []) 6).1).length = 1 := by
  decide

theorem kept_eq {al : Option (List String)} (h : al ≠ some []) (l : String) :
    keptApp al l = keptUtils al l := by
  cases al with
  | none => rfl
  | some sel =>
      cases sel with
      | nil => exact absurd rfl h
      | cons x xs => simp [keptApp, keptUtils]

theorem roundedOf_append :
    ∀ (xs ys : List Seg), roundedOf (xs ++ ys) = roundedOf xs ++ roundedOf ys := by
  intro xs ys
  induction xs with
  | nil => rfl
  | cons s tl ih =>
      obtain ⟨a, b⟩ := s
      by_cases h : pBeq (roundPt a) (roundPt b) = true
      · simp [roundedOf, h, ih]
      · simp only [Bool.not_eq_true] at h
        simp [roundedOf, h, ih]

theorem extract_agree :
    ∀ (ents : List Entity) (al : Option (List String)), al ≠ some [] →
      ents.all (fun e => match e with
        | Entity.lwpolyline _ [] true => false
        | _ => true) = true →
      ∃ ls, extractApp al ents = some ls ∧
        roundedOf ls = roundedOf (extractUtils al ents) := by
  intro ents
  induction ents with
  | nil =>
      intro al _ _
      exact ⟨[], rfl, rfl⟩
  | cons e rest ih =>
      intro al h1 h2
      rw [List.all_cons, Bool.and_eq_true] at h2
      obtain ⟨ls, hap, hrd⟩ := ih al h1 h2.2
      by_cases hk : keptApp al e.layer = true
      · have hku : keptUtils al e.layer = true := by rw [← kept_eq h1]; exact hk
        cases e with
        | line l s pe =>
            refine ⟨(s, pe) :: ls, ?_, ?_⟩
            · simp only [extractApp, Entity.layer] at hk ⊢
              rw [if_pos hk]
              simp only [entitySegsApp, hap, Option.map_some']
              rfl
            · simp only [extractUtils, Entity.layer] at hku ⊢
              rw [if_pos hku]
              simp only [entitySegsUtils]
              rw [show ((s, pe) :: ls : List Seg) = [(s, pe)] ++ ls from rfl,
                roundedOf_append, roundedOf_append, hrd]
        | lwpolyline l pts closed =>
            cases pts with
            | nil =>
                cases closed with
                | true => simp at h2
                | false =>
                    refine ⟨ls, ?_, ?_⟩
                    · simp only [extractApp, Entity.layer] at hk ⊢
                      rw [if_pos hk]
                      simp only [entitySegsApp, Bool.false_eq_true, if_false,
                        polyPairs, hap, Option.map_some']
                      rfl
                    · simp only [extractUtils, Entity.layer] at hku ⊢
                      rw [if_pos hku]
                      simp only [entitySegsUtils]
                      rw [hrd]
                      rfl
            | cons p tl =>
                cases tl with
                | nil =>
                    refine ⟨(if closed then [(p, p)] else []) ++ ls, ?_, ?_⟩
                    · simp only [extractApp, Entity.layer] at hk ⊢
                      rw [if_pos hk]
                      simp only [entitySegsApp, hap, Option.map_some']
                      cases closed with
                      | true => rfl
                      | false => rfl
                    · simp only [extractUtils, Entity.layer] at hku ⊢
                      rw [if_pos hku]
                      simp only [entitySegsUtils]
                      rw [roundedOf_append, hrd]
                      cases closed with
                      | true =>
                          simp only [if_true]
                          rw [show roundedOf [(p, p)] = [] by simp [roundedOf, pBeq_refl]]
                          rfl
                      | false =>
                          simp only [Bool.false_eq_true, if_false]
                          rfl
                | cons q tl2 =>
                    refine ⟨(polyPairs (p :: q :: tl2) ++
                        (if closed then [((p :: q :: tl2).getLast (by simp), p)] else []))
                        ++ ls, ?_, ?_⟩
                    · simp only [extractApp, Entity.layer] at hk ⊢
                      rw [if_pos hk]
                      simp only [entitySegsApp, hap, Option.map_some']
                      cases closed with
                      | true => rfl
                      | false =>
                          simp only [Bool.false_eq_true, if_false, List.append_nil]
                    · simp only [extractUtils, Entity.layer] at hku ⊢
                      rw [if_pos hku]
                      simp only [entitySegsUtils]
                      simp [roundedOf_append, List.append_assoc, hrd]
      · have hku : ¬ keptUtils al e.layer = true := by rw [← kept_eq h1]; exact hk
        simp only [Bool.not_eq_true] at hk hku
        refine ⟨ls, ?_, ?_⟩
        · simp only [extractApp, hk, Bool.false_eq_true, if_false]
          exact hap
        · simp only [extractUtils, hku, Bool.false_eq_true, if_false]
          rw [hrd]
          rfl

theorem decorateFrom_proj (scale : Rq) :
    ∀ (l : List Face) (i : Nat),
      (decorateFrom scale i l).map (fun o => (o.points, o.area_raw, o.area_m2)) =
        l.map (fun p => (closedRing p.ring, p.area, Rq.mul p.area (Rq.mul scale scale))) := by
  intro l
  induction l with
  | nil => intro i; rfl
  | cons p ps ih =>
      intro i
      simp only [decorateFrom, List.map_cons, ih]

/-- Claim C10 amended: provided the layer selection is not the empty
list and no record is a closed polyline with zero points, process_dxf
succeeds and both pipelines produce the same polygons: the same closed
rings, raw areas and scaled areas in the same order. -/
theorem c10_amended_pipelines_agree_without_empty_selection
    (ents : List Entity) (al : Option (List String)) (ucode : Nat)
    (h1 : al ≠ some [])
    (h2 : ents.all (fun e => match e with
      | Entity.lwpolyline _ [] true => false
      | _ => true) = true) :
    (process_dxf ents al ucode).map
        (List.map (fun p : Face =>
          (closedRing p.ring, p.area,
            Rq.mul p.area (Rq.mul (UNIT_TO_METERS ucode) (UNIT_TO_METERS ucode))))) =
      some (((process_dxf_geometry ents al ucode).1).map
        (fun o => (o.points, o.area_raw, o.area_m2))) := by
  obtain ⟨ls, hap, hrd⟩ := extract_agree ents al h1 h2
  rw [process_dxf_some ucode hap, Option.map_some', process_dxf_geometry_fst]
  unfold decorate
  rw [decorateFrom_proj, hrd]

/-- Witness for C10 amended: the unit square with no layer filter. -/
theorem c10_witness :
    (process_dxf squareEnts none 6).map
        (List.map (fun p : Face =>
          (closedRing p.ring, p.area,
            Rq.mul p.area (Rq.mul (UNIT_TO_METERS 6) (UNIT_TO_METERS 6))))) =
      some (((process_dxf_geometry squareEnts none 6).1).map
        (fun o => (o.points, o.area_raw, o.area_m2))) :=
  c10_amended_pipelines_agree_without_empty_selection squareEnts none 6
    (by simp) (by decide)
